import Mathlib

/-!
# Verification of the SPADE average-consensus simulation (`src/Program.py`)

Shallow embedding of the consensus engine in `Program.py`:
nodes are `Fin n` (jid `agent{i}@localhost` ↦ `i`), node values are `ℚ`
(the Python program uses floats; we model the arithmetic exactly),
message boxes are lists of payloads, and the synchronous round loop is a
fuel recursion bounded by `MAX_ITER`.

A message body is `str(value)` in the source, parsed back with `float(...)`
inside `try/except ValueError`.  We model a body as either a number or a
malformed string, and `float` as the partial parse `parseVal`.
-/

/-- A message body: `str(value)` (which parses back as a number) or an
unparseable payload (raises `ValueError` in `float(...)`). -/
inductive Payload where
  | num (q : ℚ)
  | malformed (s : String)
deriving DecidableEq

/-- `float(msg.body)` in the `try` block: succeeds exactly on numeric bodies. -/
def parseVal : Payload → Option ℚ
  | .num q => some q
  | .malformed _ => none

/-- `TARGET_PRECISION = 1e-4` (line 9). -/
def TARGET_PRECISION : ℚ := 1 / 10000

/-- `MAX_ITER = 50` (line 10). -/
def MAX_ITER : ℕ := 50

/-- The message boxes: one FIFO list per node (`message_boxes`, line 12). -/
def Boxes (n : ℕ) : Type := Fin n → List Payload

/-- `for box in message_boxes.values(): box.clear()` (lines 98-99). -/
def clearBoxes {n : ℕ} (_ : Boxes n) : Boxes n := fun _ => []

/-- The senders whose broadcast lands in node `i`'s box this round, in
arrival order: the send phase (lines 102-108) iterates senders `j` in node
order and appends one message to `box[nb]` for every occurrence of `nb` in
`neighbours_map[j]`. -/
def sendersTo {n : ℕ} (nbrs : Fin n → List (Fin n)) (i : Fin n) : List (Fin n) :=
  (List.finRange n).flatMap (fun j => ((nbrs j).filter (fun nb => nb = i)).map (fun _ => j))

/-- The contents appended to node `i`'s box by the broadcast phase:
`msg.body = str(current_values[jid])` from each sender (lines 104-107). -/
def boxFor {n : ℕ} (nbrs : Fin n → List (Fin n)) (x : Fin n → ℚ) (i : Fin n) :
    List Payload :=
  (sendersTo nbrs i).map (fun j => Payload.num (x j))

/-- Messages sent in one broadcast phase: `total_messages += 1` per send
(line 108), i.e. one per entry of every neighbour list. -/
def broadcastMsgCount {n : ℕ} (nbrs : Fin n → List (Fin n)) : ℕ :=
  ∑ j : Fin n, (nbrs j).length

/-- The receive loop of one node (lines 116-124): pop messages until the box
is empty; `float` each body; on success append the value and do
`total_arith_ops += 1`; on `ValueError`, `continue`.  Returns the `received`
list (in arrival order) and the ops counted while parsing. -/
def drainBox : List Payload → List ℚ × ℕ
  | [] => ([], 0)
  | p :: rest =>
    match parseVal p with
    | some q => (q :: (drainBox rest).1, (drainBox rest).2 + 1)
    | none => drainBox rest

/-- One node's aggregation (lines 126-131): `all_vals = [own] + received`,
`total_arith_ops += (num_vals - 1) + 1`, `new_val = sum(all_vals)/num_vals`.
Returns the new value and the whole ops delta of this node (parse ops
included). -/
def aggregateNode (xi : ℚ) (box : List Payload) : ℚ × ℕ :=
  let drained := drainBox box
  let all_vals : List ℚ := xi :: drained.1
  let num_vals : ℕ := all_vals.length
  (all_vals.sum / (num_vals : ℚ), drained.2 + ((num_vals - 1) + 1))

/-- The aggregate phase over given boxes: the new value vector. -/
def aggregateAll {n : ℕ} (x : Fin n → ℚ) (b : Boxes n) : Fin n → ℚ :=
  fun i => (aggregateNode (x i) (b i)).1

/-- The aggregate phase over given boxes: total arithmetic-ops delta. -/
def aggregateOps {n : ℕ} (x : Fin n → ℚ) (b : Boxes n) : ℕ :=
  ∑ i : Fin n, (aggregateNode (x i) (b i)).2

/-- `max_diff` of a round (lines 112, 132): starts at `0.0`, then
`max_diff = max(max_diff, abs(new - old))` over the nodes. -/
def maxDiffOf {n : ℕ} (x newv : Fin n → ℚ) : ℚ :=
  (List.finRange n).foldl (fun m i => max m |newv i - x i|) 0

/-- The outcome of one round (new values, counter deltas, `max_diff`). -/
structure RoundResult (n : ℕ) where
  values : Fin n → ℚ
  msgs : ℕ
  ops : ℕ
  maxDiff : ℚ

/-- One synchronous round (lines 97-132): clear all boxes, broadcast every
node's current value to its neighbours, then every node drains its box and
averages.  `stale` is whatever the boxes held when the round began. -/
def runRound {n : ℕ} (nbrs : Fin n → List (Fin n)) (x : Fin n → ℚ)
    (stale : Boxes n) : RoundResult n :=
  let boxes : Boxes n := fun i => clearBoxes stale i ++ boxFor nbrs x i
  let newv := aggregateAll x boxes
  { values := newv
    msgs := broadcastMsgCount nbrs
    ops := aggregateOps x boxes
    maxDiff := maxDiffOf x newv }

/-- The run's mutable state: `current_values` and the three counters
(lines 79, 86-88). -/
structure SimState (n : ℕ) where
  values : Fin n → ℚ
  total_messages : ℕ
  total_arith_ops : ℕ
  iterations_done : ℕ

/-- Outcome of the run: the `break` with its success message at iteration
`iterations_done` (lines 144-146), or the `for`-`else` iteration-limit
message (lines 147-148). -/
inductive ConvergenceResult where
  | Converged (at_iteration : ℕ)
  | IterationLimitReached
deriving DecidableEq

/-- The iteration loop (lines 97-148) as fuel recursion: run a round, commit
the new values and counters, `break` with `Converged` when
`max_diff < TARGET_PRECISION`, stop with `IterationLimitReached` when the
fuel (`MAX_ITER`) is exhausted. -/
def loopAux {n : ℕ} (nbrs : Fin n → List (Fin n)) :
    ℕ → SimState n → SimState n × ConvergenceResult
  | 0, s => (s, .IterationLimitReached)
  | fuel + 1, s =>
    let r := runRound nbrs s.values (fun _ => [])
    let s' : SimState n :=
      { values := r.values
        total_messages := s.total_messages + r.msgs
        total_arith_ops := s.total_arith_ops + r.ops
        iterations_done := s.iterations_done + 1 }
    if r.maxDiff < TARGET_PRECISION then (s', .Converged s'.iterations_done)
    else loopAux nbrs fuel s'

/-- The whole consensus run from initial values: counters start at zero,
the loop runs `for iteration in range(MAX_ITER)`. -/
def simulateRun {n : ℕ} (nbrs : Fin n → List (Fin n)) (x0 : Fin n → ℚ) :
    SimState n × ConvergenceResult :=
  loopAux nbrs MAX_ITER { values := x0, total_messages := 0, total_arith_ops := 0,
                          iterations_done := 0 }

/-- The value vector after `k` rounds. -/
def valuesAt {n : ℕ} (nbrs : Fin n → List (Fin n)) (x0 : Fin n → ℚ) : ℕ → Fin n → ℚ
  | 0 => x0
  | k + 1 => (runRound nbrs (valuesAt nbrs x0 k) (fun _ => [])).values

/-- The `max_diff` produced by round `k + 1` (0-indexed: `mdAt 0` is the
first round's metric). -/
def mdAt {n : ℕ} (nbrs : Fin n → List (Fin n)) (x0 : Fin n → ℚ) (k : ℕ) : ℚ :=
  (runRound nbrs (valuesAt nbrs x0 k) (fun _ => [])).maxDiff

/-- The line-itemised cost report (lines 156-162). -/
structure CostReport where
  memory_cost : ℚ
  iteration_cost : ℚ
  arith_cost : ℚ
  message_cost : ℚ
  final_report_cost : ℚ
  total_cost : ℚ

/-- `memory_cost = NUM_AGENTS * 1.0`, `iteration_cost = iterations_done * 1.0`,
`arith_cost = total_arith_ops * 0.01`, `message_cost = total_messages * 0.1`,
`final_report_cost = 1000.0`, `total_cost` their sum (lines 156-162). -/
def costReport (numAgents iterations_done total_arith_ops total_messages : ℕ) :
    CostReport :=
  let memory_cost : ℚ := (numAgents : ℚ) * 1
  let iteration_cost : ℚ := (iterations_done : ℚ) * 1
  let arith_cost : ℚ := (total_arith_ops : ℚ) * (1 / 100)
  let message_cost : ℚ := (total_messages : ℚ) * (1 / 10)
  let final_report_cost : ℚ := 1000
  { memory_cost := memory_cost
    iteration_cost := iteration_cost
    arith_cost := arith_cost
    message_cost := message_cost
    final_report_cost := final_report_cost
    total_cost := memory_cost + iteration_cost + arith_cost + message_cost +
      final_report_cost }

/-! ## Concrete graphs used in the developments below -/

/-- The triangle on three nodes. -/
def nbrsK3 : Fin 3 → List (Fin 3) := fun i => (List.finRange 3).filter (fun j => j ≠ i)

/-- The path `0 - 1 - 2` as a neighbour map. -/
def nbrsP3 : Fin 3 → List (Fin 3)
  | 0 => [1]
  | 1 => [0, 2]
  | 2 => [1]

/-- Initial values `(3, 0, 3)` on the path. -/
def xP3 : Fin 3 → ℚ
  | 0 => 3
  | 1 => 0
  | 2 => 3

/-- The 4-cycle `0 - 1 - 2 - 3 - 0`. -/
def cycle4 : SimpleGraph (Fin 4) where
  Adj a b := b = a + 1 ∨ a = b + 1
  symm := fun _ _ h => Or.symm h
  loopless := show ∀ a : Fin 4, ¬(a = a + 1 ∨ a = a + 1) by decide

instance : DecidableRel cycle4.Adj :=
  fun a b => inferInstanceAs (Decidable (b = a + 1 ∨ a = b + 1))

/-- The neighbour lists read off a graph, as `main` does from `G.neighbors(i)`
(lines 80-83); list order is irrelevant for every quantity we track. -/
def nbrsOfGraph {n : ℕ} (G : SimpleGraph (Fin n)) [DecidableRel G.Adj] :
    Fin n → List (Fin n) :=
  fun i => (G.neighborFinset i).sort (· ≤ ·)

/-- Connectivity of a neighbour map: a path between every pair of nodes. -/
def NbrsConnected {n : ℕ} (nbrs : Fin n → List (Fin n)) : Prop :=
  ∀ i j : Fin n, Relation.ReflTransGen (fun a b => b ∈ nbrs a) i j

/-- The averaging rule as the spec's words state it for C1: the mean of the
*set* {own value} ∪ {received values}, the divisor being one plus the number
of *distinct* received values. -/
def specSetMean (xi : ℚ) (received : List ℚ) : ℚ :=
  (∑ q ∈ insert xi received.toFinset, q) / ((1 : ℚ) + (received.dedup.length : ℚ))

/-- The per-node operation count as the spec's words state it for C6:
"the number of additions performed (the count of values summed) plus the
division", reading additions as `numSummed - 1`. -/
def specAggOps (numSummed : ℕ) : ℕ := (numSummed - 1) + 1

/-- One loop body's effect on the run state (lines 101-135). -/
def stepState {n : ℕ} (nbrs : Fin n → List (Fin n)) (s : SimState n) : SimState n :=
  let r := runRound nbrs s.values (fun _ => [])
  { values := r.values
    total_messages := s.total_messages + r.msgs
    total_arith_ops := s.total_arith_ops + r.ops
    iterations_done := s.iterations_done + 1 }

/-! ## Data for the topology-generation claim -/

/-- A candidate graph as the generator hands it over: a list of edges over
`Fin n` node ids. -/
structure CandGraph (n : ℕ) where
  edges : List (Fin n × Fin n)
deriving DecidableEq

/-- Undirected adjacency read off the edge list. -/
def CandGraph.adjacent {n : ℕ} (g : CandGraph n) (a b : Fin n) : Prop :=
  (a, b) ∈ g.edges ∨ (b, a) ∈ g.edges

instance {n : ℕ} (g : CandGraph n) : DecidableRel g.adjacent :=
  fun a b => inferInstanceAs (Decidable ((a, b) ∈ g.edges ∨ (b, a) ∈ g.edges))

/-- Connectivity: a path exists between every pair of the `n` nodes. -/
def CandGraph.IsConnected {n : ℕ} (g : CandGraph n) : Prop :=
  ∀ i j : Fin n, Relation.ReflTransGen (fun a b => g.adjacent a b) i j

/-- A simple graph with exactly `M` edges: no self-loops, no duplicate
edges (in either orientation). -/
def CandGraph.SimpleWithEdges {n : ℕ} (g : CandGraph n) (M : ℕ) : Prop :=
  g.edges.length = M ∧ g.edges.Nodup ∧ (∀ e ∈ g.edges, e.1 ≠ e.2)
    ∧ ∀ e ∈ g.edges, (e.2, e.1) ∉ g.edges

/-- Modelled from the spec: `nx.gnm_random_graph(NUM_AGENTS, 15)` and
`nx.is_connected(G)` are networkx library calls, external to this repository.
Per the spec the generator draws G(n, M) candidates and rejects disconnected
ones (lines 40-42 of `Program.py`): `draw` is the stream of random candidate
draws, `isConn` the connectivity check, `k` the index of the next draw, and
the rejection loop returns the first draw that passes the check (`fuel`
bounds the recursion; the source loop has no bound). -/
def generateTopology {n : ℕ} (isConn : CandGraph n → Bool)
    (draw : ℕ → CandGraph n) : ℕ → ℕ → Option (CandGraph n)
  | _, 0 => none
  | k, fuel + 1 =>
    if isConn (draw k) then some (draw k)
    else generateTopology isConn draw (k + 1) fuel

/-- A disconnected candidate: a triangle on `{0, 1, 2}` with node 3
isolated (3 edges). -/
def triIso : CandGraph 4 := ⟨[(0, 1), (1, 2), (0, 2)]⟩

/-- A connected candidate: the path `0 - 1 - 2 - 3` (3 edges). -/
def path4 : CandGraph 4 := ⟨[(0, 1), (1, 2), (2, 3)]⟩

/-- A candidate stream whose first draw is disconnected. -/
def drawEx : ℕ → CandGraph 4
  | 0 => triIso
  | _ => path4

/-- A connectivity check that is correct on the draws of `drawEx`. -/
def isConnEx : CandGraph 4 → Bool := fun g => g = path4

/-! ## Basic lemmas about the round machinery -/

theorem drainBox_eq (l : List Payload) :
    drainBox l = (l.filterMap parseVal, (l.filterMap parseVal).length) := by
  induction l with
  | nil => rfl
  | cons p rest ih =>
    cases hp : parseVal p <;>
      simp [drainBox, List.filterMap_cons, hp, ih]

theorem filterMap_parseVal_num {n : ℕ} (l : List (Fin n)) (x : Fin n → ℚ) :
    (l.map (fun j => Payload.num (x j))).filterMap parseVal = l.map x := by
  induction l with
  | nil => rfl
  | cons a t ih => simp [List.filterMap_cons, parseVal, ih]

theorem drainBox_boxFor {n : ℕ} (nbrs : Fin n → List (Fin n)) (x : Fin n → ℚ)
    (i : Fin n) :
    drainBox (boxFor nbrs x i) = ((sendersTo nbrs i).map x, (sendersTo nbrs i).length) := by
  rw [boxFor, drainBox_eq, filterMap_parseVal_num]
  simp

theorem runRound_values {n : ℕ} (nbrs : Fin n → List (Fin n)) (x : Fin n → ℚ)
    (stale : Boxes n) (i : Fin n) :
    (runRound nbrs x stale).values i
      = (x i + ((sendersTo nbrs i).map x).sum) /
          ((((sendersTo nbrs i).length + 1 : ℕ) : ℚ)) := by
  show (aggregateNode (x i) (clearBoxes stale i ++ boxFor nbrs x i)).1 = _
  rw [clearBoxes]
  simp only [List.nil_append, aggregateNode, drainBox_boxFor]
  simp [add_comm, List.length_map]

theorem runRound_ops {n : ℕ} (nbrs : Fin n → List (Fin n)) (x : Fin n → ℚ)
    (stale : Boxes n) :
    (runRound nbrs x stale).ops
      = ∑ i : Fin n, (2 * (sendersTo nbrs i).length + 1) := by
  show aggregateOps x _ = _
  refine Finset.sum_congr rfl (fun i _ => ?_)
  show (aggregateNode (x i) (clearBoxes stale i ++ boxFor nbrs x i)).2 = _
  rw [clearBoxes]
  simp only [List.nil_append, aggregateNode, drainBox_boxFor]
  simp [List.length_map]
  omega

theorem runRound_msgs {n : ℕ} (nbrs : Fin n → List (Fin n)) (x : Fin n → ℚ)
    (stale : Boxes n) :
    (runRound nbrs x stale).msgs = ∑ j : Fin n, (nbrs j).length := rfl

theorem runRound_maxDiff {n : ℕ} (nbrs : Fin n → List (Fin n)) (x : Fin n → ℚ)
    (stale : Boxes n) :
    (runRound nbrs x stale).maxDiff
      = maxDiffOf x ((runRound nbrs x stale).values) := rfl

/-! ## Lemmas about the fold computing `max_diff` -/

theorem foldl_max_init_le {n : ℕ} (f : Fin n → ℚ) (l : List (Fin n)) (a : ℚ) :
    a ≤ l.foldl (fun m i => max m (f i)) a := by
  induction l generalizing a with
  | nil => exact le_refl a
  | cons b t ih => exact le_trans (le_max_left a (f b)) (ih (max a (f b)))

theorem le_foldl_max {n : ℕ} (f : Fin n → ℚ) (l : List (Fin n)) (a : ℚ)
    (i : Fin n) (hi : i ∈ l) :
    f i ≤ l.foldl (fun m i => max m (f i)) a := by
  induction l generalizing a with
  | nil => cases hi
  | cons b t ih =>
    rcases List.mem_cons.mp hi with h | h
    · subst h
      exact le_trans (le_max_right a (f i)) (foldl_max_init_le f t (max a (f i)))
    · exact ih (max a (f b)) h

theorem maxDiffOf_nonneg {n : ℕ} (x newv : Fin n → ℚ) : 0 ≤ maxDiffOf x newv :=
  foldl_max_init_le _ _ 0

theorem abs_sub_le_maxDiffOf {n : ℕ} (x newv : Fin n → ℚ) (i : Fin n) :
    |newv i - x i| ≤ maxDiffOf x newv :=
  le_foldl_max (fun i => |newv i - x i|) (List.finRange n) 0 i (List.mem_finRange i)

/-! ## List sum helper lemmas -/

theorem list_sum_map_sub {n : ℕ} (l : List (Fin n)) (f g : Fin n → ℚ) :
    (l.map f).sum - (l.map g).sum = (l.map (fun j => f j - g j)).sum := by
  induction l with
  | nil => simp
  | cons a t ih => simp [ih]; ring_nf; rw [← ih]; ring

theorem abs_list_sum_le (l : List ℚ) : |l.sum| ≤ (l.map (fun q => |q|)).sum := by
  induction l with
  | nil => simp
  | cons a t ih =>
    simp only [List.sum_cons, List.map_cons]
    exact le_trans (abs_add a t.sum) (by linarith)

/-! ## Senders are exactly the neighbours (for duplicate-free neighbour lists) -/

theorem filter_eq_singleton_of_nodup {n : ℕ} (l : List (Fin n)) (hl : l.Nodup)
    (i : Fin n) :
    l.filter (fun b => b = i) = if i ∈ l then [i] else [] := by
  induction l with
  | nil => simp
  | cons a t ih =>
    rw [List.nodup_cons] at hl
    rcases eq_or_ne a i with rfl | hai
    · rw [List.filter_cons_of_pos (by simp), ih hl.2, if_neg hl.1,
        if_pos (List.mem_cons_self a t)]
    · have hmem : i ∈ a :: t ↔ i ∈ t := by
        simp [List.mem_cons, Ne.symm hai]
      rw [List.filter_cons_of_neg (by simp [hai]), ih hl.2]
      by_cases h : i ∈ t
      · rw [if_pos h, if_pos (hmem.mpr h)]
      · rw [if_neg h, if_neg (fun hc => h (hmem.mp hc))]

theorem flatMap_if_singleton {n : ℕ} (l : List (Fin n)) (p : Fin n → Prop)
    [DecidablePred p] :
    (l.flatMap (fun j => if p j then [j] else [])) = l.filter (fun j => p j) := by
  induction l with
  | nil => rfl
  | cons a t ih =>
    by_cases h : p a
    · rw [List.flatMap_cons, if_pos h, List.filter_cons_of_pos (by simpa using h), ih]
      rfl
    · rw [List.flatMap_cons, if_neg h, List.filter_cons_of_neg (by simpa using h), ih]
      rfl

theorem sendersTo_eq_filter {n : ℕ} (nbrs : Fin n → List (Fin n))
    (hnd : ∀ j, (nbrs j).Nodup) (i : Fin n) :
    sendersTo nbrs i = (List.finRange n).filter (fun j => i ∈ nbrs j) := by
  rw [sendersTo]
  have hpt : ∀ j : Fin n,
      ((nbrs j).filter (fun nb => nb = i)).map (fun _ => j)
        = if i ∈ nbrs j then [j] else [] := by
    intro j
    rw [filter_eq_singleton_of_nodup (nbrs j) (hnd j) i]
    by_cases h : i ∈ nbrs j
    · rw [if_pos h, if_pos h]
      rfl
    · rw [if_neg h, if_neg h]
      rfl
  calc (List.finRange n).flatMap
        (fun j => ((nbrs j).filter (fun nb => nb = i)).map (fun _ => j))
      = (List.finRange n).flatMap (fun j => if i ∈ nbrs j then [j] else []) := by
        rw [funext hpt]
    _ = (List.finRange n).filter (fun j => i ∈ nbrs j) :=
        flatMap_if_singleton _ _

/-! ## Claim theorems -/

/-- C1 (counterexample): on the path `0 - 1 - 2` with values `(3, 0, 3)`,
node 1 receives the duplicate values `[3, 3]`; the code averages the *list*
`[0, 3, 3]` and produces `2`, while the set-mean of `{0, 3}` demanded by the
claim is `3/2`. -/
theorem round_update_set_mean_cex :
    (runRound nbrsP3 xP3 (fun _ => [])).values 1 = 2
    ∧ (sendersTo nbrsP3 1).map xP3 = [3, 3]
    ∧ specSetMean (xP3 1) ((sendersTo nbrsP3 1).map xP3) = 3 / 2
    ∧ (2 : ℚ) ≠ 3 / 2 := by
  have h1 : sendersTo nbrsP3 1 = [0, 2] := by decide
  have hmap : (sendersTo nbrsP3 1).map xP3 = [3, 3] := by rw [h1]; simp [xP3]
  refine ⟨?_, hmap, ?_, by norm_num⟩
  · rw [runRound_values, h1]
    norm_num [xP3]
  · rw [hmap, specSetMean]
    have htf : ([3, 3] : List ℚ).toFinset = {3} := by
      simp
    have hdd : ([3, 3] : List ℚ).dedup = [3] := by
      simp
    rw [htf, hdd]
    have hx : xP3 1 = 0 := rfl
    rw [hx]
    rw [show (insert (0 : ℚ) ({3} : Finset ℚ)) = {0, 3} from rfl]
    rw [Finset.sum_insert (by norm_num), Finset.sum_singleton]
    norm_num

/-- C1 (amended): for a duplicate-free, symmetric neighbour map, each node's
new value is the arithmetic mean of the *list* {own pre-round value} followed
by the values actually received — their sum divided by one plus the number of
values received (duplicates counted) — and the received values are exactly
the pre-round values of its neighbours, one message each. -/
theorem round_update_rule {n : ℕ} (nbrs : Fin n → List (Fin n))
    (hnd : ∀ j, (nbrs j).Nodup) (hsym : ∀ i j : Fin n, i ∈ nbrs j ↔ j ∈ nbrs i)
    (x : Fin n → ℚ) (stale : Boxes n) (i : Fin n) :
    (runRound nbrs x stale).values i
        = (x i + ((sendersTo nbrs i).map x).sum)
            / ((((sendersTo nbrs i).length + 1 : ℕ) : ℚ))
    ∧ (sendersTo nbrs i).Nodup
    ∧ (∀ j, j ∈ sendersTo nbrs i ↔ j ∈ nbrs i) := by
  refine ⟨runRound_values nbrs x stale i, ?_, ?_⟩
  · rw [sendersTo_eq_filter nbrs hnd i]
    exact (List.nodup_finRange n).filter _
  · intro j
    rw [sendersTo_eq_filter nbrs hnd i, List.mem_filter]
    simp only [List.mem_finRange, true_and, decide_eq_true_eq]
    exact hsym i j

/-- Witness for the amended C1 at the triangle with values `x j = j`. -/
theorem round_update_rule_witness :
    (runRound nbrsK3 (fun j => ((j : ℕ) : ℚ)) (fun _ => [])).values 0
        = ((fun j : Fin 3 => ((j : ℕ) : ℚ)) 0
            + ((sendersTo nbrsK3 0).map (fun j : Fin 3 => ((j : ℕ) : ℚ))).sum)
            / ((((sendersTo nbrsK3 0).length + 1 : ℕ) : ℚ))
    ∧ (sendersTo nbrsK3 0).Nodup
    ∧ (∀ j, j ∈ sendersTo nbrsK3 0 ↔ j ∈ nbrsK3 0) :=
  round_update_rule nbrsK3 (by decide) (by decide)
    (fun j => ((j : ℕ) : ℚ)) (fun _ => []) 0

/-- C4: a payload that fails to parse is silently dropped from the averaging
set: the aggregate phase is total, and injecting one malformed message into
node `i`'s box yields the same value vector as if it had never been sent. -/
theorem malformed_message_tolerance {n : ℕ} (x : Fin n → ℚ) (b : Boxes n)
    (i : Fin n) (xs ys : List Payload) (s : String) :
    aggregateAll x (Function.update b i (xs ++ Payload.malformed s :: ys))
      = aggregateAll x (Function.update b i (xs ++ ys)) := by
  funext k
  unfold aggregateAll
  rcases eq_or_ne k i with rfl | hk
  · rw [Function.update_same, Function.update_same]
    unfold aggregateNode
    rw [drainBox_eq, drainBox_eq]
    simp [List.filterMap_append, List.filterMap_cons, parseVal]
  · rw [Function.update_noteq hk, Function.update_noteq hk]

/-- C5: every broadcast phase increments the message counter by exactly the
number of directed edges — twice the edge count of the undirected graph; in
particular 8 per round on the 4-cycle. -/
theorem message_accounting :
    (∀ (n : ℕ) (G : SimpleGraph (Fin n)) [DecidableRel G.Adj] (x : Fin n → ℚ)
        (stale : Boxes n),
        (runRound (nbrsOfGraph G) x stale).msgs = 2 * G.edgeFinset.card)
    ∧ ∀ (x : Fin 4 → ℚ) (stale : Boxes 4),
        (runRound (nbrsOfGraph cycle4) x stale).msgs = 8 := by
  have hgen : ∀ (n : ℕ) (G : SimpleGraph (Fin n)) (inst : DecidableRel G.Adj)
      (x : Fin n → ℚ) (stale : Boxes n),
      (runRound (nbrsOfGraph G) x stale).msgs = 2 * G.edgeFinset.card := by
    intro n G inst x stale
    rw [runRound_msgs]
    have hdeg : ∀ j, (nbrsOfGraph G j).length = G.degree j := by
      intro j
      show ((G.neighborFinset j).sort (· ≤ ·)).length = _
      rw [Finset.length_sort]
      rfl
    calc ∑ j : Fin n, (nbrsOfGraph G j).length
        = ∑ j : Fin n, G.degree j := Finset.sum_congr rfl (fun j _ => hdeg j)
      _ = 2 * G.edgeFinset.card := G.sum_degrees_eq_twice_card_edges
  exact ⟨fun n G inst x stale => hgen n G inst x stale,
    fun x stale => by rw [hgen 4 cycle4 _ x stale]; decide⟩

/-- C6 (counterexample): one round on the triangle.  Each node sums 3 values
(own + two received).  The code adds `2 (parse) + 2 (additions) + 1
(division) = 5` ops per node — 15 in total — while the claim's counts give
`(3-1)+1 = 3` per node (9 total), or 12 total even when "additions" is read
as the full count of values summed. -/
theorem arith_ops_accounting_cex :
    (runRound nbrsK3 (fun j => ((j : ℕ) : ℚ)) (fun _ => [])).ops = 15
    ∧ (∑ i : Fin 3, specAggOps ((sendersTo nbrsK3 i).length + 1)) = 9
    ∧ (∑ i : Fin 3, ((sendersTo nbrsK3 i).length + 1 + 1)) = 12
    ∧ (15 : ℕ) ≠ 9 ∧ (15 : ℕ) ≠ 12 :=
  ⟨by decide, by decide, by decide, by decide, by decide⟩

/-- C6 (amended): per node and round the counter increases by one per
successfully parsed received value *plus* one per addition in the sum
(`num_vals - 1`) plus one for the division — `2·r + 1` where `r` is the
number of values received. -/
theorem arith_ops_accounting {n : ℕ} (nbrs : Fin n → List (Fin n))
    (x : Fin n → ℚ) (stale : Boxes n) :
    (runRound nbrs x stale).ops
      = ∑ i : Fin n, (2 * (sendersTo nbrs i).length + 1) :=
  runRound_ops nbrs x stale

/-- C7: the cost report is the fixed linear function of node count,
iterations, arithmetic ops, messages and the final-report constant, and the
total is the sum of the itemised components. -/
theorem cost_report_breakdown (numAgents iters ops msgs : ℕ) :
    (costReport numAgents iters ops msgs).total_cost
        = (costReport numAgents iters ops msgs).memory_cost
          + (costReport numAgents iters ops msgs).iteration_cost
          + (costReport numAgents iters ops msgs).arith_cost
          + (costReport numAgents iters ops msgs).message_cost
          + (costReport numAgents iters ops msgs).final_report_cost
    ∧ (costReport numAgents iters ops msgs).memory_cost = (numAgents : ℚ) * 1
    ∧ (costReport numAgents iters ops msgs).iteration_cost = (iters : ℚ) * 1
    ∧ (costReport numAgents iters ops msgs).arith_cost = (ops : ℚ) * (1 / 100)
    ∧ (costReport numAgents iters ops msgs).message_cost = (msgs : ℚ) * (1 / 10)
    ∧ (costReport numAgents iters ops msgs).final_report_cost = 1000 :=
  ⟨rfl, rfl, rfl, rfl, rfl, rfl⟩

/-- C9: on the connected irregular path `0 - 1 - 2` with values `(3, 0, 3)`
one round does not preserve the total sum: it drops from 6 to 5. -/
theorem sum_not_preserved :
    NbrsConnected nbrsP3
    ∧ (nbrsP3 0).length ≠ (nbrsP3 1).length
    ∧ (∑ i : Fin 3, (runRound nbrsP3 xP3 (fun _ => [])).values i)
        ≠ (∑ i : Fin 3, xP3 i) := by
  refine ⟨?_, by decide, ?_⟩
  · have h01 : Relation.ReflTransGen (fun a b : Fin 3 => b ∈ nbrsP3 a) 0 1 :=
      Relation.ReflTransGen.single (by decide)
    have h10 : Relation.ReflTransGen (fun a b : Fin 3 => b ∈ nbrsP3 a) 1 0 :=
      Relation.ReflTransGen.single (by decide)
    have h12 : Relation.ReflTransGen (fun a b : Fin 3 => b ∈ nbrsP3 a) 1 2 :=
      Relation.ReflTransGen.single (by decide)
    have h21 : Relation.ReflTransGen (fun a b : Fin 3 => b ∈ nbrsP3 a) 2 1 :=
      Relation.ReflTransGen.single (by decide)
    intro i j
    fin_cases i <;> fin_cases j
    · exact Relation.ReflTransGen.refl
    · exact h01
    · exact h01.trans h12
    · exact h10
    · exact Relation.ReflTransGen.refl
    · exact h12
    · exact h21.trans h10
    · exact h21
    · exact Relation.ReflTransGen.refl
  · have hnew : (∑ i : Fin 3, (runRound nbrsP3 xP3 (fun _ => [])).values i) = 5 := by
      rw [Fin.sum_univ_three, runRound_values, runRound_values, runRound_values]
      have h0 : sendersTo nbrsP3 0 = [1] := by decide
      have h1 : sendersTo nbrsP3 1 = [0, 2] := by decide
      have h2 : sendersTo nbrsP3 2 = [1] := by decide
      rw [h0, h1, h2]
      norm_num [xP3]
    have hold : (∑ i : Fin 3, xP3 i) = 6 := by
      rw [Fin.sum_univ_three]
      norm_num [xP3]
    rw [hnew, hold]
    norm_num

/-- C10: the boxes are cleared before any broadcast and each node drains its
box until empty, so a round's outcome is independent of whatever the boxes
held when it began, and each node's averaging list holds exactly the values
broadcast to it this round by its senders. -/
theorem cross_round_isolation {n : ℕ} (nbrs : Fin n → List (Fin n))
    (x : Fin n → ℚ) (stale stale2 : Boxes n) :
    runRound nbrs x stale = runRound nbrs x stale2
    ∧ ∀ i, (drainBox (clearBoxes stale i ++ boxFor nbrs x i)).1
        = (sendersTo nbrs i).map x := by
  refine ⟨rfl, fun i => ?_⟩
  show (drainBox ([] ++ boxFor nbrs x i)).1 = _
  rw [List.nil_append, drainBox_boxFor]

/-! ## C8: the averaging step is nonexpansive in the sup norm -/

/-- C8: once a round has just produced `max_diff < TARGET_PRECISION`, one
additional round changes no node's value by more than `TARGET_PRECISION`:
the new round's per-node change is an average of the previous round's
per-node changes. -/
theorem idempotence_at_fixed_point {n : ℕ} (nbrs : Fin n → List (Fin n))
    (x : Fin n → ℚ) (stale stale2 : Boxes n)
    (h : (runRound nbrs x stale).maxDiff < TARGET_PRECISION) (i : Fin n) :
    |(runRound nbrs ((runRound nbrs x stale).values) stale2).values i
        - (runRound nbrs x stale).values i| ≤ TARGET_PRECISION := by
  set y : Fin n → ℚ := (runRound nbrs x stale).values with hy_def
  set M : ℚ := maxDiffOf x y with hM_def
  have hMe : (runRound nbrs x stale).maxDiff = M := rfl
  rw [hMe] at h
  have hMnn : 0 ≤ M := maxDiffOf_nonneg x y
  have hb : ∀ j, |y j - x j| ≤ M := fun j => abs_sub_le_maxDiffOf x y j
  set s : List (Fin n) := sendersTo nbrs i with hs_def
  set L : ℕ := s.length with hL_def
  have hdpos : (0 : ℚ) < ((L + 1 : ℕ) : ℚ) := by
    exact_mod_cast Nat.succ_pos L
  have hyi : y i = (x i + (s.map x).sum) / ((L + 1 : ℕ) : ℚ) :=
    runRound_values nbrs x stale i
  have hzi : (runRound nbrs y stale2).values i
      = (y i + (s.map y).sum) / ((L + 1 : ℕ) : ℚ) :=
    runRound_values nbrs y stale2 i
  have hdiff : (runRound nbrs y stale2).values i - y i
      = ((y i - x i) + (s.map (fun j => y j - x j)).sum) / ((L + 1 : ℕ) : ℚ) := by
    rw [hzi]
    nth_rewrite 2 [hyi]
    rw [div_sub_div_same]
    congr 1
    rw [← list_sum_map_sub]
    ring
  rw [hdiff, abs_div, abs_of_pos hdpos]
  have habs2 : |(s.map (fun j => y j - x j)).sum|
      ≤ ((s.map (fun j => y j - x j)).map (fun q => |q|)).sum :=
    abs_list_sum_le _
  have hcomp : (s.map (fun j => y j - x j)).map (fun q => |q|)
      = s.map (fun j => |y j - x j|) := by
    rw [List.map_map]
    rfl
  have hsum : (s.map (fun j => |y j - x j|)).sum
      ≤ (s.map (fun j => |y j - x j|)).length • M := by
    refine List.sum_le_card_nsmul _ M ?_
    intro q hq
    rcases List.mem_map.mp hq with ⟨j, _, rfl⟩
    exact hb j
  have hlen : (s.map (fun j => |y j - x j|)).length = L := by
    rw [List.length_map]
  have hsum2 : (s.map (fun j => |y j - x j|)).sum ≤ (L : ℚ) * M := by
    rw [hlen] at hsum
    rw [← nsmul_eq_mul]
    exact hsum
  have hnum : |(y i - x i) + (s.map (fun j => y j - x j)).sum|
      ≤ ((L + 1 : ℕ) : ℚ) * M := by
    have h1 := abs_add (y i - x i) ((s.map (fun j => y j - x j)).sum)
    have h2 := hb i
    rw [hcomp] at habs2
    push_cast
    nlinarith [habs2, hsum2]
  have hfinal : |(y i - x i) + (s.map (fun j => y j - x j)).sum|
      / ((L + 1 : ℕ) : ℚ) ≤ M := by
    rw [div_le_iff₀ hdpos]
    calc |(y i - x i) + (s.map (fun j => y j - x j)).sum|
        ≤ ((L + 1 : ℕ) : ℚ) * M := hnum
      _ = M * ((L + 1 : ℕ) : ℚ) := mul_comm _ _
  exact le_trans hfinal (le_of_lt h)

/-- Witness for C8: a single isolated node at value 0 has `max_diff = 0` after
one round, and the next round moves it by at most the precision. -/
theorem idempotence_at_fixed_point_witness :
    |(runRound (fun _ : Fin 1 => ([] : List (Fin 1)))
        ((runRound (fun _ : Fin 1 => ([] : List (Fin 1)))
          (fun _ => 0) (fun _ => [])).values)
        (fun _ => [])).values 0
      - (runRound (fun _ : Fin 1 => ([] : List (Fin 1)))
          (fun _ => 0) (fun _ => [])).values 0| ≤ TARGET_PRECISION := by
  refine idempotence_at_fixed_point (fun _ => []) (fun _ => 0)
    (fun _ => []) (fun _ => []) ?_ 0
  have h0 : (runRound (fun _ : Fin 1 => ([] : List (Fin 1)))
      (fun _ => (0 : ℚ)) (fun _ => [])).values 0 = 0 := by
    rw [runRound_values]
    have hs : sendersTo (fun _ : Fin 1 => ([] : List (Fin 1))) 0 = [] := by decide
    rw [hs]
    norm_num
  have hfr : List.finRange 1 = [0] := rfl
  show maxDiffOf (fun _ => (0 : ℚ))
      ((runRound (fun _ : Fin 1 => ([] : List (Fin 1)))
        (fun _ => (0 : ℚ)) (fun _ => [])).values) < TARGET_PRECISION
  rw [maxDiffOf, hfr]
  show max 0 |(runRound (fun _ : Fin 1 => ([] : List (Fin 1)))
      (fun _ => (0 : ℚ)) (fun _ => [])).values 0 - (0 : ℚ)| < TARGET_PRECISION
  rw [h0]
  rw [TARGET_PRECISION]
  norm_num

/-! ## C2: characterisation of the iteration loop -/

theorem valuesAt_shift {n : ℕ} (nbrs : Fin n → List (Fin n)) (x0 : Fin n → ℚ)
    (k : ℕ) :
    valuesAt nbrs ((runRound nbrs x0 (fun _ => [])).values) k
      = valuesAt nbrs x0 (k + 1) := by
  induction k with
  | zero => rfl
  | succ k ih =>
    show (runRound nbrs (valuesAt nbrs ((runRound nbrs x0 (fun _ => [])).values) k)
        (fun _ => [])).values = _
    rw [ih]
    rfl

theorem mdAt_shift {n : ℕ} (nbrs : Fin n → List (Fin n)) (x0 : Fin n → ℚ)
    (k : ℕ) :
    mdAt nbrs ((runRound nbrs x0 (fun _ => [])).values) k = mdAt nbrs x0 (k + 1) := by
  rw [mdAt, mdAt, valuesAt_shift]

theorem loopAux_char {n : ℕ} (nbrs : Fin n → List (Fin n)) :
    ∀ (fuel : ℕ) (s : SimState n),
      (∃ t, 1 ≤ t ∧ t ≤ fuel
        ∧ (loopAux nbrs fuel s).2
            = ConvergenceResult.Converged (s.iterations_done + t)
        ∧ (loopAux nbrs fuel s).1.iterations_done = s.iterations_done + t
        ∧ (loopAux nbrs fuel s).1.values = valuesAt nbrs s.values t
        ∧ mdAt nbrs s.values (t - 1) < TARGET_PRECISION
        ∧ ∀ j < t - 1, TARGET_PRECISION ≤ mdAt nbrs s.values j)
      ∨ ((loopAux nbrs fuel s).2 = ConvergenceResult.IterationLimitReached
        ∧ (loopAux nbrs fuel s).1.iterations_done = s.iterations_done + fuel
        ∧ (loopAux nbrs fuel s).1.values = valuesAt nbrs s.values fuel
        ∧ ∀ j < fuel, TARGET_PRECISION ≤ mdAt nbrs s.values j) := by
  intro fuel
  induction fuel with
  | zero =>
    intro s
    right
    exact ⟨rfl, rfl, rfl, fun j hj => absurd hj (Nat.not_lt_zero j)⟩
  | succ fuel ih =>
    intro s
    have hred : loopAux nbrs (fuel + 1) s
        = if (runRound nbrs s.values (fun _ => [])).maxDiff < TARGET_PRECISION
          then (stepState nbrs s,
            ConvergenceResult.Converged (s.iterations_done + 1))
          else loopAux nbrs fuel (stepState nbrs s) := rfl
    have hstep_it : (stepState nbrs s).iterations_done = s.iterations_done + 1 := rfl
    have hstep_v : (stepState nbrs s).values
        = (runRound nbrs s.values (fun _ => [])).values := rfl
    by_cases h : (runRound nbrs s.values (fun _ => [])).maxDiff < TARGET_PRECISION
    · rw [hred, if_pos h]
      left
      exact ⟨1, le_refl 1, Nat.succ_le_succ (Nat.zero_le fuel), rfl, rfl, rfl, h,
        fun j hj => absurd hj (Nat.not_lt_zero j)⟩
    · rw [hred, if_neg h]
      have hge : TARGET_PRECISION ≤ (runRound nbrs s.values (fun _ => [])).maxDiff :=
        not_lt.mp h
      rcases ih (stepState nbrs s) with
        ⟨t, ht1, htf, hres, hiter, hval, hmd, hprev⟩ | ⟨hres, hiter, hval, hprev⟩
      · left
        refine ⟨t + 1, Nat.le_add_left 1 t, Nat.succ_le_succ htf, ?_, ?_, ?_, ?_, ?_⟩
        · rw [hres, hstep_it]
          congr 1
          omega
        · rw [hiter, hstep_it]
          omega
        · rw [hval, hstep_v, valuesAt_shift]
        · have hmd2 : mdAt nbrs ((runRound nbrs s.values (fun _ => [])).values)
              (t - 1) < TARGET_PRECISION := by
            rw [← hstep_v]
            exact hmd
          rw [mdAt_shift, Nat.sub_add_cancel ht1] at hmd2
          simpa using hmd2
        · intro j hj
          rcases Nat.eq_zero_or_pos j with rfl | hjpos
          · exact hge
          · obtain ⟨j, rfl⟩ := Nat.exists_eq_add_of_le hjpos
            have hj2 : j < t - 1 := by omega
            have hp := hprev j hj2
            rw [hstep_v, mdAt_shift] at hp
            simpa [Nat.add_comm] using hp
      · right
        refine ⟨hres, ?_, ?_, ?_⟩
        · rw [hiter, hstep_it]
          omega
        · rw [hval, hstep_v, valuesAt_shift]
        · intro j hj
          rcases Nat.eq_zero_or_pos j with rfl | hjpos
          · exact hge
          · obtain ⟨j, rfl⟩ := Nat.exists_eq_add_of_le hjpos
            have hj2 : j < fuel := by omega
            have hp := hprev j hj2
            rw [hstep_v, mdAt_shift] at hp
            simpa [Nat.add_comm] using hp

/-- C2: the run ends in exactly one of two ways: `Converged t` is signalled
immediately after the first round `t ≤ MAX_ITER` whose `max_diff` falls below
`TARGET_PRECISION` (all earlier rounds at or above it, exactly `t` rounds
applied), or — when no round of the `MAX_ITER` executed goes below the
threshold — `IterationLimitReached`. -/
theorem terminal_outcomes {n : ℕ} (nbrs : Fin n → List (Fin n)) (x0 : Fin n → ℚ) :
    (∃ t, 1 ≤ t ∧ t ≤ MAX_ITER
      ∧ (simulateRun nbrs x0).2 = ConvergenceResult.Converged t
      ∧ (simulateRun nbrs x0).1.iterations_done = t
      ∧ (simulateRun nbrs x0).1.values = valuesAt nbrs x0 t
      ∧ mdAt nbrs x0 (t - 1) < TARGET_PRECISION
      ∧ ∀ j < t - 1, TARGET_PRECISION ≤ mdAt nbrs x0 j)
    ∨ ((simulateRun nbrs x0).2 = ConvergenceResult.IterationLimitReached
      ∧ (simulateRun nbrs x0).1.iterations_done = MAX_ITER
      ∧ (simulateRun nbrs x0).1.values = valuesAt nbrs x0 MAX_ITER
      ∧ ∀ j < MAX_ITER, TARGET_PRECISION ≤ mdAt nbrs x0 j) := by
  have hch := loopAux_char nbrs MAX_ITER
    { values := x0, total_messages := 0, total_arith_ops := 0, iterations_done := 0 }
  simpa [simulateRun] using hch

/-! ## C3: topology generation (modelled from the spec; networkx is external) -/

theorem generateTopology_spec {n : ℕ} (isConn : CandGraph n → Bool)
    (draw : ℕ → CandGraph n) :
    ∀ (fuel k : ℕ) (g : CandGraph n),
      generateTopology isConn draw k fuel = some g →
      ∃ t, g = draw (k + t) ∧ isConn (draw (k + t)) = true
        ∧ ∀ j, k ≤ j → j < k + t → isConn (draw j) = false := by
  intro fuel
  induction fuel with
  | zero =>
    intro k g h
    exact absurd h (by rw [generateTopology]; exact Option.noConfusion)
  | succ fuel ih =>
    intro k g h
    rw [generateTopology] at h
    by_cases hc : isConn (draw k)
    · rw [if_pos hc] at h
      refine ⟨0, by simpa using (Option.some.injEq _ _ ▸ h).symm, ?_, ?_⟩
      · simpa using hc
      · intro j h1 h2
        omega
    · rw [if_neg hc] at h
      obtain ⟨t, hg, hct, hprev⟩ := ih (k + 1) g h
      refine ⟨t + 1, by rw [hg]; congr 1; omega, ?_, ?_⟩
      · have : k + (t + 1) = k + 1 + t := by omega
        rw [this]
        exact hct
      · intro j h1 h2
        rcases Nat.eq_or_lt_of_le h1 with rfl | hlt
        · exact Bool.not_eq_true _ ▸ (by simpa using hc)
        · exact hprev j hlt (by omega)

/-- C3: whatever graph the rejection-sampling generator returns is connected,
simple and has exactly `M` edges; a disconnected draw is never accepted —
every draw before the accepted one failed the connectivity check. -/
theorem topology_generation {n M : ℕ} (isConn : CandGraph n → Bool)
    (draw : ℕ → CandGraph n)
    (hconn : ∀ k, isConn (draw k) = true ↔ (draw k).IsConnected)
    (hdraw : ∀ k, (draw k).SimpleWithEdges M)
    (fuel : ℕ) (g : CandGraph n)
    (hres : generateTopology isConn draw 0 fuel = some g) :
    g.IsConnected ∧ g.SimpleWithEdges M
    ∧ ∃ k, g = draw k ∧ ∀ j < k, ¬ (draw j).IsConnected := by
  obtain ⟨t, hg, hct, hprev⟩ := generateTopology_spec isConn draw fuel 0 g hres
  refine ⟨?_, ?_, ⟨0 + t, hg, ?_⟩⟩
  · rw [hg]
    exact (hconn (0 + t)).mp hct
  · rw [hg]
    exact hdraw (0 + t)
  · intro j hj hcj
    have hfalse := hprev j (Nat.zero_le j) hj
    have htrue := (hconn j).mpr hcj
    rw [hfalse] at htrue
    exact Bool.noConfusion htrue

theorem path4_connected : path4.IsConnected := by
  have hsym : Symmetric (fun a b => path4.adjacent a b) := fun a b h => Or.symm h
  have r01 : Relation.ReflTransGen (fun a b => path4.adjacent a b) 0 1 :=
    Relation.ReflTransGen.single (by decide)
  have r12 : Relation.ReflTransGen (fun a b => path4.adjacent a b) 1 2 :=
    Relation.ReflTransGen.single (by decide)
  have r23 : Relation.ReflTransGen (fun a b => path4.adjacent a b) 2 3 :=
    Relation.ReflTransGen.single (by decide)
  have reach0 : ∀ j : Fin 4, Relation.ReflTransGen (fun a b => path4.adjacent a b) 0 j := by
    intro j
    fin_cases j
    · exact Relation.ReflTransGen.refl
    · exact r01
    · exact r01.trans r12
    · exact (r01.trans r12).trans r23
  intro i j
  exact (Relation.ReflTransGen.symmetric hsym (reach0 i)).trans (reach0 j)

theorem triIso_not_connected : ¬ triIso.IsConnected := by
  intro h
  rcases Relation.ReflTransGen.cases_head (h 3 0) with h30 | ⟨c, hc, _⟩
  · exact absurd h30 (by decide)
  · have hnone : ∀ c : Fin 4, ¬ triIso.adjacent 3 c := by decide
    exact hnone c hc

theorem isConnEx_correct : ∀ k, isConnEx (drawEx k) = true ↔ (drawEx k).IsConnected := by
  intro k
  cases k with
  | zero =>
    constructor
    · intro h
      exact absurd h (by decide)
    · intro h
      exact absurd h triIso_not_connected
  | succ k =>
    constructor
    · intro _
      exact path4_connected
    · intro _
      exact (by decide : isConnEx path4 = true)

theorem drawEx_simple : ∀ k, (drawEx k).SimpleWithEdges 3 := by
  intro k
  cases k with
  | zero => exact ⟨rfl, by decide, by decide, by decide⟩
  | succ k =>
    show path4.SimpleWithEdges 3
    exact ⟨rfl, by decide, by decide, by decide⟩

/-- Witness for C3: from the stream `drawEx` the generator skips the
disconnected triangle-plus-isolated-node draw and returns the path. -/
theorem topology_generation_witness :
    path4.IsConnected ∧ path4.SimpleWithEdges 3
    ∧ ∃ k, path4 = drawEx k ∧ ∀ j < k, ¬ (drawEx j).IsConnected :=
  topology_generation isConnEx drawEx isConnEx_correct drawEx_simple 5 path4 rfl
